import Mathlib

/-!
Verification of `hashmap/chart.py`: a script that reads benchmark output
lines, extracts measurement records, groups them by benchmark group and
variant, and emits one chart block per group.

Modelling conventions (shallow embedding of the Python source):
* a Python string is a `List Char` (`Str`); `s.split(c)` for a one-character
  separator is `splitOnChar`, `s.strip()` is `pyStrip`, `needle in hay` is
  `containsSub`, `s.startswith(p)` is `List.isPrefixOf`;
* `int(s)` is `pyInt : Str → Option Int` (`none` models a raised
  `ValueError`); it accepts surrounding whitespace, an optional sign and
  ASCII digits with single underscores between digits, as CPython does;
* Python float division is modelled as exact division in `ℚ` (for the
  magnitudes in the claims the IEEE result is exactly representable, so
  the rational model agrees with the float one);
* list indexing `l[i]` that the script guarantees in bounds is `List.getD`;
  indexing that can raise `IndexError` is `List.get?` with `none` mapped to
  the failure result;
* the nested `defaultdict(lambda: defaultdict(list))` is an insertion-ordered
  association list (`Table`), updated by `pushAssoc`, matching the insertion
  order semantics of Python dicts;
* `sorted(mapping)` is insertion sort of the key list by code-point
  lexicographic order (`strLe`), which agrees with Python string comparison;
* the html emission loop (lines 51-75 of the source) is modelled
  structurally: one `ChartBlock` per group holding one `SeriesDef` per
  variant; the surrounding fixed html text carries no data and is omitted.
-/

/-- A Python string, as its list of code points. -/
abbrev Str := List Char

/-- `s.split(sep)` for a single-character separator, Python semantics:
always at least one piece, empty pieces kept. -/
def splitOnChar (sep : Char) : Str → List Str
  | [] => [[]]
  | c :: cs =>
    if c = sep then [] :: splitOnChar sep cs
    else
      match splitOnChar sep cs with
      | [] => [[c]]
      | r :: rs => (c :: r) :: rs

/-- `s.strip()`: drop leading and trailing whitespace. -/
def pyStrip (s : Str) : Str :=
  ((s.dropWhile Char.isWhitespace).reverse.dropWhile Char.isWhitespace).reverse

/-- Digit-or-separating-underscore tail of a Python integer literal:
every underscore must be followed by a digit, every other character must be
a digit. -/
def pyDigitsAux : Str → Bool
  | [] => true
  | ['_'] => false
  | '_' :: c :: cs => c.isDigit && pyDigitsAux cs
  | c :: cs => c.isDigit && pyDigitsAux cs

/-- Non-empty ASCII digit string, single underscores allowed between
digits (CPython `int` literal body). -/
def pyDigits : Str → Bool
  | [] => false
  | c :: cs => c.isDigit && pyDigitsAux cs

/-- Numeric value of a digit string, ignoring underscores. -/
def pyDigitsVal (s : Str) : Nat :=
  s.foldl (fun acc c => if c = '_' then acc else acc * 10 + (c.toNat - 48)) 0

/-- `int(s)` on a string: strip whitespace, optional sign, digits;
`none` models the raised `ValueError`. -/
def pyInt (s : Str) : Option Int :=
  match pyStrip s with
  | '-' :: rest => if pyDigits rest then some (-(pyDigitsVal rest : Int)) else none
  | '+' :: rest => if pyDigits rest then some ((pyDigitsVal rest : Nat) : Int) else none
  | cs => if pyDigits cs then some ((pyDigitsVal cs : Nat) : Int) else none

/-- Python `needle in hay` substring test. -/
def containsSub (needle : Str) : Str → Bool
  | [] => needle.isEmpty
  | c :: rest => needle.isPrefixOf (c :: rest) || containsSub needle rest

/-- The measurement record appended for one accepted line
(spec `MeasurementRecord`; the `load` field is the spec's display label,
built from field 4 of the line). -/
structure MeasurementRecord where
  n : Int
  value : ℚ
  load : Str
deriving DecidableEq, Repr, Inhabited

/-- One pending insertion: group name, variant name, record. -/
abbrev Entry := Str × Str × MeasurementRecord

/-- Result of processing one input line: filtered out silently, aborted by
an uncaught exception, or producing records to insert. -/
inductive LineRes where
  | skipped : LineRes
  | failed : LineRes
  | records : List Entry → LineRes
deriving DecidableEq, Repr, Inhabited

def benchTag : Str := "Benchmark".toList
def memPattern : Str := "BenchmarkRandomFullInsertsInsertsU64".toList
def memGroup : Str := "MemoryConsumption".toList
def loadTag : Str := "load=".toList

/-- Field `i` of the tab-split line (source `lineRaw[i]`; the script only
indexes fields 0-4 after checking the length is 8, so `getD` never falls
back to its default on a candidate line). -/
def fieldD (line : Str) (i : Nat) : Str := (splitOnChar '\t' line).getD i []

/-- Line filter, source line 19: exactly 8 tab fields and field 0 starts
with `Benchmark` (the source `continue` fires on the negation). -/
def candidateB (line : Str) : Bool :=
  let lineRaw := splitOnChar '\t' line
  lineRaw.length == 8 && benchTag.isPrefixOf (lineRaw.getD 0 [])

/-- `lineRaw[2].strip().split(' ')[0]` shape: first space-separated token
of the stripped field. -/
def firstTok (s : Str) : Str := (splitOnChar ' ' (pyStrip s)).headI

/-- Decoding of a candidate line, source lines 21-31.  `get?`-misses and
`pyInt` failures model the uncaught `IndexError` / `ValueError`. -/
def decodeLine (line : Str) : LineRes :=
  let lineRaw := splitOnChar '\t' line
  let firstRaw := splitOnChar '/' (lineRaw.getD 0 [])
  let benchName := firstRaw.headI
  match firstRaw.get? 1 with
  | none => LineRes.failed
  | some seg =>
    let annotParts := splitOnChar '-' seg
    let mapName := annotParts.headI
    match annotParts.get? 1 with
    | none => LineRes.failed
    | some nRaw =>
      match pyInt nRaw with
      | none => LineRes.failed
      | some n =>
        match pyInt (firstTok (lineRaw.getD 2 [])) with
        | none => LineRes.failed
        | some t_ns =>
          let time_ms : ℚ := (t_ns : ℚ) / (1000 * 1000)
          let load := loadTag ++ firstTok (lineRaw.getD 4 [])
          if containsSub memPattern benchName then
            match pyInt (firstTok (lineRaw.getD 3 [])) with
            | none => LineRes.failed
            | some bytes =>
              LineRes.records [(benchName, mapName, ⟨n, time_ms, load⟩),
                (memGroup, mapName, ⟨n, (bytes : ℚ) / (1024 * 1024), load⟩)]
          else LineRes.records [(benchName, mapName, ⟨n, time_ms, load⟩)]

/-- Processing of one raw input line, source lines 18-31. -/
def extractLine (line : Str) : LineRes :=
  if candidateB line then decodeLine line else LineRes.skipped

abbrev PointList := List MeasurementRecord
abbrev VarTable := List (Str × PointList)
abbrev Table := List (Str × VarTable)

/-- Association-list lookup (Python dict access on string keys). -/
def lookupA {β : Type} : List (Str × β) → Str → Option β
  | [], _ => none
  | (k, b) :: rest, k' => if k = k' then some b else lookupA rest k'

/-- Update a key of an insertion-ordered dict: the value at `k` becomes
`upd` of the current value (or of `none` when absent, in which case the key
is appended at the end, as Python dict insertion does). -/
def pushAssoc {β : Type} (upd : Option β → β) : List (Str × β) → Str → List (Str × β)
  | [], k => [(k, upd none)]
  | (k', b) :: rest, k =>
    if k' = k then (k', upd (some b)) :: rest
    else (k', b) :: pushAssoc upd rest k

/-- `mapping[bench][map].append(rec)`, inner level: default-construct the
list then append. -/
def pushVar (vs : VarTable) (vr : Str × MeasurementRecord) : VarTable :=
  pushAssoc (fun rs? => rs?.getD [] ++ [vr.2]) vs vr.1

/-- `mapping[bench][map].append(rec)`, outer level. -/
def addRec (t : Table) (e : Entry) : Table :=
  pushAssoc (fun vs? => pushVar (vs?.getD []) e.2) t e.1

/-- The collection loop of source lines 17-31 over the remaining input,
starting from the table built so far.  `none` models the uncaught exception
that aborts the whole run before anything is printed. -/
def extractFrom (t : Table) : List Str → Option Table
  | [] => some t
  | l :: ls =>
    match extractLine l with
    | LineRes.skipped => extractFrom t ls
    | LineRes.failed => none
    | LineRes.records rs => extractFrom (rs.foldl addRec t) ls

/-- Full extraction pass over the input lines. -/
def extract (lines : List Str) : Option Table := extractFrom [] lines

/-- Code-point comparison `a <= b` on Python strings. -/
def strLe : Str → Str → Bool
  | [], _ => true
  | _ :: _, [] => false
  | a :: as, b :: bs =>
    if a.toNat < b.toNat then true
    else if b.toNat < a.toNat then false
    else strLe as bs

def strLeP (a b : Str) : Prop := strLe a b = true

instance : DecidableRel strLeP := fun a b => inferInstanceAs (Decidable (strLe a b = true))

/-- One plotted series (source lines 58-71): the per-variant object with
its name and the three parallel coordinate lists. -/
structure SeriesDef where
  name : Str
  x : List Int
  y : List ℚ
  text : List Str
  mode : Str
deriving DecidableEq, Repr, Inhabited

/-- One chart block (source lines 51-75): a group name, its y-axis title
and its series in stored variant order. -/
structure ChartBlock where
  benchmark : Str
  yNaming : Str
  series : List SeriesDef
deriving DecidableEq, Repr, Inhabited

/-- Series built from one `(variant, points)` pair of the table. -/
def mkSeries (p : Str × PointList) : SeriesDef :=
  { name := p.1
    x := p.2.map MeasurementRecord.n
    y := p.2.map MeasurementRecord.value
    text := p.2.map MeasurementRecord.load
    mode := ("lines+markers").toList }

/-- The emitter loop, source lines 51-75: one block per group, groups
iterated in sorted key order, variants in stored (first-seen) order. -/
def emitBlocks (t : Table) : List ChartBlock :=
  (List.insertionSort strLeP (t.map Prod.fst)).map fun benchmark =>
    { benchmark := benchmark
      yNaming := if benchmark = memGroup then ("memory (MB)").toList else ("time (ms)").toList
      series := ((lookupA t benchmark).getD []).map mkSeries }

/-- The whole pipeline: collect, then emit.  The script prints the html
document only after the collection loop has finished, so an aborted run
(`none`) produces no part of the document. -/
def runPipeline (lines : List Str) : Option (List ChartBlock) :=
  (extract lines).map emitBlocks

/-! Spec-side observers: the claims describe fields of an input line by how
they are obtained; these definitions follow the claims' wording and are
related to `extractLine` by the theorems below. -/

/-- The group name: part of field 0 before the first `/`. -/
def benchD (line : Str) : Str := (splitOnChar '/' (fieldD line 0)).headI

/-- The second `/`-segment of field 0 (empty when absent). -/
def seg1D (line : Str) : Str := (splitOnChar '/' (fieldD line 0)).getD 1 []

/-- The variant name: part of the second `/`-segment before the first `-`. -/
def mapD (line : Str) : Str := (splitOnChar '-' (seg1D line)).headI

/-- The `n` sub-segment: between the first and second `-` of the second
`/`-segment (empty when absent). -/
def nRawD (line : Str) : Str := (splitOnChar '-' (seg1D line)).getD 1 []

/-- The display label: `load=` followed by the first token of field 4. -/
def loadD (line : Str) : Str := loadTag ++ firstTok (fieldD line 4)

/-- Records contributed by one line (empty for skipped or failing lines). -/
def lineContrib (line : Str) : List Entry :=
  match extractLine line with
  | LineRes.records rs => rs
  | _ => []

/-- All contributed entries of the input, in input-line order. -/
def specEntries (lines : List Str) : List Entry := lines.flatMap lineContrib

/-- The `(variant, record)` pairs destined for group `g`, in input order. -/
def specEntriesFor (lines : List Str) (g : Str) : List (Str × MeasurementRecord) :=
  ((specEntries lines).filter (fun e => decide (e.1 = g))).map (·.2)

/-- First-seen-order fold: append each element not seen before. -/
def seenFold (acc : List Str) (xs : List Str) : List Str :=
  xs.foldl (fun acc x => if x ∈ acc then acc else acc ++ [x]) acc

/-- The variants of group `g` in first-seen input order. -/
def specVariants (lines : List Str) (g : Str) : List Str :=
  seenFold [] ((specEntriesFor lines g).map (·.1))

/-- The records of `(g, v)` in input-line order. -/
def specPoints (lines : List Str) (g v : Str) : PointList :=
  ((specEntriesFor lines g).filter (fun p => decide (p.1 = v))).map (·.2)

/-- Fold of `pushAssoc` updates over a list of keyed items (both nesting
levels of the table construction are instances of this shape). -/
def foldPush {β γ : Type} (upd : Option β → γ → β)
    (init : List (Str × β)) (items : List (Str × γ)) : List (Str × β) :=
  items.foldl (fun acc it => pushAssoc (fun b? => upd b? it.2) acc it.1) init

/-- The inner dict that a successful run builds for group `g`. -/
def varTableFor (lines : List Str) (g : Str) : VarTable :=
  (specEntriesFor lines g).foldl pushVar []

/-! Concrete input lines used to instantiate the theorems below.  The
record lists are defined as `lineContrib` of the line so that equalities
with `extractLine` hold definitionally. -/

/-- A line of the recognized memory pattern with `time_ns = 1500000` and
`bytes = 2097152` (so the converted values are 1.5 ms and 2.0 MB). -/
def wLineA : Str :=
  ("BenchmarkRandomFullInsertsInsertsU64/RobinHood-1000\tN\t1500000 ns/op\t2097152 B/op\t0.75\tX\tY\tZ").toList

def wRsA : List Entry := lineContrib wLineA

/-- An accepted line outside the memory pattern. -/
def wLineB : Str :=
  ("BenchmarkInsert/Std-2000\tN\t500000 ns/op\t4096 B/op\t0.50\tX\tY\tZ").toList

def wRsB : List Entry := lineContrib wLineB

/-- 8 fields and the right start, but the `n` segment is not numeric. -/
def badNLine : Str := ("Benchmark/x-y\tb\tc\td\te\tf\tg\th").toList

/-- 8 fields and the right start, recognized memory pattern, but the byte
field is not numeric. -/
def badByteLine : Str :=
  ("BenchmarkRandomFullInsertsInsertsU64/Robin-1000\tN\t500000 ns/op\tXYZ B/op\t0.75\tX\tY\tZ").toList

/-- 8 fields and the right start, but field 0 has no `/` separator. -/
def noSlashLine : Str := ("BenchmarkLookups\tb\tc\td\te\tf\tg\th").toList

/-- 8 fields and the right start, but the second `/`-segment has no `-`. -/
def noDashLine : Str := ("Benchmark/alpha\tb\tc\td\te\tf\tg\th").toList

/-- A line with the wrong tab arity (7 fields), skipped silently. -/
def shortLine : Str := ("Benchmark/x-1\tb\tc\td\te\tf\tg").toList

/-- A two-line input whose successful run has the three groups
`BenchmarkInsert`, `BenchmarkRandomFullInsertsInsertsU64` and
`MemoryConsumption`. -/
def wLines : List Str := [wLineA, wLineB]

/-- The table the run over `wLines` builds. -/
def wTable : Table := (specEntries wLines).foldl addRec []

/-- The inner dict stored under `MemoryConsumption` in `wTable`. -/
def wMCvs : VarTable := (lookupA wTable memGroup).getD []

/-! Basic facts about the string helpers. -/

theorem splitOnChar_ne_nil (sep : Char) (s : Str) : splitOnChar sep s ≠ [] := by
  induction s with
  | nil => simp [splitOnChar]
  | cons c cs ih =>
    simp only [splitOnChar]
    split
    · simp
    · split
      · simp
      · simp

theorem not_sep_of_mem_splitOnChar (sep : Char) :
    ∀ (s : Str), ∀ p ∈ splitOnChar sep s, sep ∉ p := by
  intro s
  induction s with
  | nil =>
    intro p hp
    simp [splitOnChar] at hp
    simp [hp]
  | cons c cs ih =>
    intro p hp
    simp only [splitOnChar] at hp
    by_cases hc : c = sep
    · rw [if_pos hc] at hp
      rcases List.mem_cons.mp hp with h | h
      · simp [h]
      · exact ih p h
    · rw [if_neg hc] at hp
      obtain ⟨r, rest, hsplit⟩ := List.exists_cons_of_ne_nil (splitOnChar_ne_nil sep cs)
      rw [hsplit] at hp
      rcases List.mem_cons.mp hp with h | h
      · subst h
        intro hmem
        rcases List.mem_cons.mp hmem with h1 | h1
        · exact hc h1.symm
        · exact ih r (hsplit ▸ List.mem_cons_self r rest) h1
      · exact ih p (hsplit ▸ List.mem_cons_of_mem r h)

theorem splitOnChar_of_not_mem {sep : Char} {s : Str} (h : sep ∉ s) :
    splitOnChar sep s = [s] := by
  induction s with
  | nil => rfl
  | cons c cs ih =>
    have hc : ¬ c = sep := fun hh => h (hh ▸ List.mem_cons_self c cs)
    have hcs : sep ∉ cs := fun hh => h (List.mem_cons_of_mem c hh)
    simp only [splitOnChar, if_neg hc, ih hcs]

theorem headI_splitOnChar_isPre (sep : Char) :
    ∀ (p s : Str), p.isPrefixOf s = true → sep ∉ p →
      p.isPrefixOf ((splitOnChar sep s).headI) = true := by
  intro p
  induction p with
  | nil => intro s _ _; cases (splitOnChar sep s).headI <;> rfl
  | cons a as ih =>
    intro s hpre hsep
    cases s with
    | nil => simp [List.isPrefixOf] at hpre
    | cons b bs =>
      simp only [List.isPrefixOf, Bool.and_eq_true, beq_iff_eq] at hpre
      obtain ⟨rfl, hpre'⟩ := hpre
      have ha : ¬ a = sep := fun hh => hsep (hh ▸ List.mem_cons_self a as)
      have has : sep ∉ as := fun hh => hsep (List.mem_cons_of_mem a hh)
      obtain ⟨r, rest, hsplit⟩ := List.exists_cons_of_ne_nil (splitOnChar_ne_nil sep bs)
      have hr := ih bs hpre' has
      rw [hsplit] at hr
      simp only [List.headI] at hr
      simp only [splitOnChar, if_neg ha, hsplit, List.headI]
      show ((a == a) && as.isPrefixOf r) = true
      rw [beq_self_eq_true, Bool.true_and]
      exact hr

theorem getD_of_get? {α : Type} {l : List α} {i : Nat} {x : α} (d : α)
    (h : l.get? i = some x) : l.getD i d = x := by
  induction l generalizing i with
  | nil => simp [List.get?] at h
  | cons a as ih =>
    cases i with
    | zero => simp [List.get?] at h; simp [List.getD, h]
    | succ j =>
      simp only [List.get?] at h
      simpa [List.getD] using ih h

theorem mem_pyStrip {c : Char} {s : Str} (h : c ∈ pyStrip s) : c ∈ s := by
  unfold pyStrip at h
  rw [List.mem_reverse] at h
  have h2 := (List.dropWhile_sublist _).subset h
  rw [List.mem_reverse] at h2
  exact (List.dropWhile_sublist _).subset h2

theorem pyInt_nonneg {s : Str} {z : Int} (hs : ('-' : Char) ∉ s)
    (h : pyInt s = some z) : 0 ≤ z := by
  unfold pyInt at h
  split at h
  · -- leading minus: impossible, '-' would be a character of s
    rename_i rest heq
    exact absurd (mem_pyStrip (heq ▸ List.mem_cons_self '-' rest)) hs
  · split at h
    · cases h; exact Int.natCast_nonneg _
    · cases h
  · split at h
    · cases h; exact Int.natCast_nonneg _
    · cases h

/-! Structure of `extractLine`: the skip case and the full shape of a
successful decode. -/

theorem decodeLine_ne_skipped (line : Str) : decodeLine line ≠ LineRes.skipped := by
  intro h
  simp only [decodeLine] at h
  repeat' split at h
  all_goals exact LineRes.noConfusion h

theorem extractLine_skipped_iff {line : Str} :
    extractLine line = LineRes.skipped ↔ candidateB line = false := by
  constructor
  · intro h
    by_cases hc : candidateB line
    · simp only [extractLine, if_pos hc] at h
      exact absurd h (decodeLine_ne_skipped line)
    · simpa using hc
  · intro h
    simp only [extractLine, h]
    simp

/-- Complete description of a line that produced records: the filter
passed, every numeric sub-field parsed, and the record list is the primary
timing record, followed by the derived memory record exactly when the
group name contains the recognized pattern. -/
theorem extractLine_records {line : Str} {rs : List Entry}
    (h : extractLine line = LineRes.records rs) :
    candidateB line = true ∧
    ∃ seg nRaw n t_ns,
      (splitOnChar '/' (fieldD line 0)).get? 1 = some seg ∧
      (splitOnChar '-' seg).get? 1 = some nRaw ∧
      pyInt nRaw = some n ∧
      pyInt (firstTok (fieldD line 2)) = some t_ns ∧
      ((containsSub memPattern (benchD line) = true ∧
          ∃ bytes, pyInt (firstTok (fieldD line 3)) = some bytes ∧
            rs = [(benchD line, mapD line, ⟨n, (t_ns : ℚ) / (1000 * 1000), loadD line⟩),
                  (memGroup, mapD line, ⟨n, (bytes : ℚ) / (1024 * 1024), loadD line⟩)]) ∨
        (containsSub memPattern (benchD line) = false ∧
          rs = [(benchD line, mapD line, ⟨n, (t_ns : ℚ) / (1000 * 1000), loadD line⟩)])) := by
  unfold extractLine at h
  by_cases hc : candidateB line
  case neg => rw [if_neg hc] at h; exact LineRes.noConfusion h
  rw [if_pos hc] at h
  refine ⟨hc, ?_⟩
  simp only [decodeLine] at h
  split at h
  · exact LineRes.noConfusion h
  rename_i seg hseg
  split at h
  · exact LineRes.noConfusion h
  rename_i nRaw hnRaw
  split at h
  · exact LineRes.noConfusion h
  rename_i n hn
  split at h
  · exact LineRes.noConfusion h
  rename_i t_ns htns
  have hseg1 : seg1D line = seg := by
    simp only [seg1D, fieldD]
    exact getD_of_get? [] hseg
  split at h
  · rename_i hpat
    split at h
    · exact LineRes.noConfusion h
    rename_i bytes hbytes
    cases h
    refine ⟨seg, nRaw, n, t_ns, hseg, hnRaw, hn, htns, Or.inl ⟨?_, bytes, hbytes, ?_⟩⟩
    · simpa only [benchD, fieldD] using hpat
    · simp only [benchD, mapD, loadD, fieldD, hseg1]
  · rename_i hpat
    cases h
    refine ⟨seg, nRaw, n, t_ns, hseg, hnRaw, hn, htns, Or.inr ⟨?_, ?_⟩⟩
    · simp only [benchD, fieldD]
      simpa using hpat
    · simp only [benchD, mapD, loadD, fieldD, hseg1]

/-! The collection loop: failure propagation and the fold form of a
successful run. -/

theorem extractFrom_none {lines : List Str} {l : Str} (hmem : l ∈ lines)
    (hf : extractLine l = LineRes.failed) : ∀ t, extractFrom t lines = none := by
  induction lines with
  | nil => cases hmem
  | cons a ls ih =>
    intro t
    rcases List.mem_cons.mp hmem with h | h
    · subst h
      simp [extractFrom, hf]
    · cases hA : extractLine a with
      | skipped => simp only [extractFrom, hA]; exact ih h t
      | failed => simp [extractFrom, hA]
      | records rs => simp only [extractFrom, hA]; exact ih h _

theorem extractFrom_some {lines : List Str}
    (hok : ∀ l ∈ lines, extractLine l ≠ LineRes.failed) :
    ∀ t, extractFrom t lines = some ((specEntries lines).foldl addRec t) := by
  induction lines with
  | nil => intro t; simp [extractFrom, specEntries]
  | cons a ls ih =>
    intro t
    have ha := hok a (List.mem_cons_self a ls)
    have hok' : ∀ l ∈ ls, extractLine l ≠ LineRes.failed :=
      fun l hl => hok l (List.mem_cons_of_mem a hl)
    cases hA : extractLine a with
    | skipped =>
      simp only [extractFrom, hA, ih hok']
      simp [specEntries, lineContrib, hA]
    | failed => exact absurd hA ha
    | records rs =>
      simp only [extractFrom, hA, ih hok']
      simp [specEntries, lineContrib, hA, List.foldl_append]

theorem extract_some {lines : List Str} {t : Table} (h : extract lines = some t) :
    t = (specEntries lines).foldl addRec [] ∧
      ∀ l ∈ lines, extractLine l ≠ LineRes.failed := by
  have hok : ∀ l ∈ lines, extractLine l ≠ LineRes.failed := by
    intro l hl hf
    have hnone := extractFrom_none hl hf []
    rw [extract, hnone] at h
    exact Option.noConfusion h
  refine ⟨?_, hok⟩
  have hsome := extractFrom_some hok []
  rw [extract, hsome] at h
  exact (Option.some.inj h).symm

/-! Ordered association lists: effect of one `pushAssoc` update. -/

theorem lookupA_pushAssoc_self {β : Type} (upd : Option β → β)
    (t : List (Str × β)) (k : Str) :
    lookupA (pushAssoc upd t k) k = some (upd (lookupA t k)) := by
  induction t with
  | nil => simp [pushAssoc, lookupA]
  | cons p rest ih =>
    obtain ⟨k0, b⟩ := p
    by_cases h : k0 = k
    · subst h
      simp [pushAssoc, lookupA]
    · simp [pushAssoc, lookupA, h, ih]

theorem lookupA_pushAssoc_ne {β : Type} (upd : Option β → β)
    (t : List (Str × β)) {k k' : Str} (h : k' ≠ k) :
    lookupA (pushAssoc upd t k) k' = lookupA t k' := by
  induction t with
  | nil => simp [pushAssoc, lookupA, Ne.symm h]
  | cons p rest ih =>
    obtain ⟨k0, b⟩ := p
    by_cases h0 : k0 = k
    · subst h0
      have : ¬ k0 = k' := fun hh => h (hh.symm)
      simp [pushAssoc, lookupA, this]
    · by_cases h1 : k0 = k'
      · subst h1
        simp [pushAssoc, lookupA, h0]
      · simp [pushAssoc, lookupA, h0, h1, ih]

theorem keys_pushAssoc {β : Type} (upd : Option β → β)
    (t : List (Str × β)) (k : Str) :
    (pushAssoc upd t k).map Prod.fst =
      if k ∈ t.map Prod.fst then t.map Prod.fst else t.map Prod.fst ++ [k] := by
  induction t with
  | nil =>
    show [(k, upd none)].map Prod.fst = _
    simp only [List.map_nil]
    rw [if_neg (List.not_mem_nil k)]
    rfl
  | cons p rest ih =>
    obtain ⟨k0, b⟩ := p
    show (if k0 = k then (k0, upd (some b)) :: rest
        else (k0, b) :: pushAssoc upd rest k).map Prod.fst = _
    simp only [List.map_cons]
    by_cases h0 : k0 = k
    · subst h0
      rw [if_pos rfl, if_pos (List.mem_cons_self k0 (rest.map Prod.fst))]
      rfl
    · rw [if_neg h0, List.map_cons, ih]
      by_cases h1 : k ∈ rest.map Prod.fst
      · rw [if_pos h1,
          if_pos (show k ∈ k0 :: rest.map Prod.fst from
            List.mem_cons_of_mem _ h1)]
      · have hnm : k ∉ k0 :: rest.map Prod.fst := by
          simp only [List.mem_cons]
          rintro (h | h)
          · exact h0 h.symm
          · exact h1 h
        rw [if_neg h1, if_neg hnm]
        rfl

/-! Folding a batch of keyed insertions into an ordered dict. -/

theorem lookupA_foldPush {β γ : Type} (upd : Option β → γ → β) :
    ∀ (items : List (Str × γ)) (init : List (Str × β)) (k : Str),
      lookupA (foldPush upd init items) k
        = ((items.filter (fun it => decide (it.1 = k))).map (·.2)).foldl
            (fun b? g => some (upd b? g)) (lookupA init k) := by
  intro items
  induction items with
  | nil => intro init k; rfl
  | cons it rest ih =>
    intro init k
    show lookupA (foldPush upd (pushAssoc (fun b? => upd b? it.2) init it.1) rest) k = _
    rw [ih]
    by_cases h : it.1 = k
    · subst h
      rw [lookupA_pushAssoc_self]
      simp only [List.filter_cons, decide_eq_true_eq, if_pos rfl, List.map_cons,
        List.foldl_cons]
      simp
    · rw [lookupA_pushAssoc_ne _ _ (fun hh => h hh.symm)]
      simp only [List.filter_cons, decide_eq_true_eq, if_neg h]

theorem keys_foldPush {β γ : Type} (upd : Option β → γ → β) :
    ∀ (items : List (Str × γ)) (init : List (Str × β)),
      (foldPush upd init items).map Prod.fst
        = seenFold (init.map Prod.fst) (items.map (·.1)) := by
  intro items
  induction items with
  | nil => intro init; rfl
  | cons it rest ih =>
    intro init
    show (foldPush upd (pushAssoc (fun b? => upd b? it.2) init it.1) rest).map Prod.fst = _
    rw [ih, keys_pushAssoc]
    simp only [List.map_cons, seenFold, List.foldl_cons]

theorem foldl_some_upd {β γ : Type} (upd : Option β → γ → β) :
    ∀ (l : List γ) (b : β),
      l.foldl (fun b? g => some (upd b? g)) (some b)
        = some (l.foldl (fun b g => upd (some b) g) b) := by
  intro l
  induction l with
  | nil => intro b; rfl
  | cons g rest ih => intro b; simp only [List.foldl_cons]; exact ih (upd (some b) g)

theorem foldl_opt_split {β γ : Type} [DecidableEq γ] (upd : Option β → γ → β) (dflt : β)
    (hupd : ∀ g, upd none g = upd (some dflt) g) :
    ∀ (l : List γ),
      l.foldl (fun b? g => some (upd b? g)) none
        = if l = [] then none
          else some (l.foldl (fun b g => upd (some b) g) dflt) := by
  intro l
  cases l with
  | nil => rfl
  | cons g rest =>
    rw [if_neg (List.cons_ne_nil g rest)]
    simp only [List.foldl_cons, foldl_some_upd, hupd g]

theorem foldl_append_one {α : Type} :
    ∀ (l : List α) (acc : List α),
      l.foldl (fun rs r => rs ++ [r]) acc = acc ++ l := by
  intro l
  induction l with
  | nil => intro acc; simp
  | cons r rest ih => intro acc; simp [List.foldl_cons, ih]

/-! `seenFold` produces the first-seen order without duplicates. -/

theorem seenFold_nodup :
    ∀ (xs acc : List Str), acc.Nodup → (seenFold acc xs).Nodup := by
  intro xs
  induction xs with
  | nil => intro acc h; exact h
  | cons x rest ih =>
    intro acc h
    show (seenFold (if x ∈ acc then acc else acc ++ [x]) rest).Nodup
    by_cases hx : x ∈ acc
    · rw [if_pos hx]; exact ih acc h
    · rw [if_neg hx]
      refine ih _ ?_
      rw [List.nodup_append]
      refine ⟨h, List.nodup_singleton x, ?_⟩
      intro a ha hax
      rw [List.mem_singleton] at hax
      subst hax
      exact hx ha

theorem mem_seenFold :
    ∀ (xs acc : List Str) (y : Str), y ∈ seenFold acc xs ↔ y ∈ acc ∨ y ∈ xs := by
  intro xs
  induction xs with
  | nil => intro acc y; simp [seenFold]
  | cons x rest ih =>
    intro acc y
    show y ∈ seenFold (if x ∈ acc then acc else acc ++ [x]) rest ↔ _
    rw [ih]
    by_cases hx : x ∈ acc
    · rw [if_pos hx]
      constructor
      · rintro (h | h)
        · exact Or.inl h
        · exact Or.inr (List.mem_cons_of_mem x h)
      · rintro (h | h)
        · exact Or.inl h
        · rcases List.mem_cons.mp h with h | h
          · exact Or.inl (h ▸ hx)
          · exact Or.inr h
    · rw [if_neg hx]
      simp only [List.mem_append, List.mem_singleton, List.mem_cons]
      tauto

/-! Lookup versus keys and membership. -/

theorem lookupA_isSome_iff {β : Type} :
    ∀ (t : List (Str × β)) (k : Str),
      (lookupA t k).isSome = true ↔ k ∈ t.map Prod.fst := by
  intro t
  induction t with
  | nil => intro k; simp [lookupA]
  | cons p rest ih =>
    intro k
    obtain ⟨k0, b⟩ := p
    by_cases h : k0 = k
    · subst h
      show (if k0 = k0 then some b else lookupA rest k0).isSome = true ↔ _
      rw [if_pos rfl]
      simp only [Option.isSome_some, List.map_cons]
      exact ⟨fun _ => List.mem_cons_self k0 (rest.map Prod.fst), fun _ => trivial⟩
    · show (if k0 = k then some b else lookupA rest k).isSome = true ↔ _
      rw [if_neg h, ih]
      simp only [List.map_cons, List.mem_cons]
      constructor
      · exact fun hh => Or.inr hh
      · rintro (hh | hh)
        · exact absurd hh.symm h
        · exact hh

theorem lookupA_of_mem_nodup {β : Type} :
    ∀ {t : List (Str × β)} {k : Str} {b : β},
      (t.map Prod.fst).Nodup → (k, b) ∈ t → lookupA t k = some b := by
  intro t
  induction t with
  | nil => intro k b _ hm; cases hm
  | cons p rest ih =>
    intro k b hnd hm
    obtain ⟨k0, b0⟩ := p
    simp only [List.map_cons, List.nodup_cons] at hnd
    rcases List.mem_cons.mp hm with h | h
    · cases h
      show (if k = k then some b else lookupA rest k) = some b
      rw [if_pos rfl]
    · show (if k0 = k then some b0 else lookupA rest k) = some b
      have hk : ¬ k0 = k := by
        intro hh
        subst hh
        exact hnd.1 (List.mem_map.mpr ⟨(k0, b), h, rfl⟩)
      rw [if_neg hk]
      exact ih hnd.2 h

/-! The grouped table of a successful run, characterized by input order. -/

theorem foldl_addRec_eq (es : List Entry) (t : Table) :
    es.foldl addRec t = foldPush (fun vs? vr => pushVar (vs?.getD []) vr) t es := rfl

theorem keysT_extract {lines : List Str} {t : Table} (h : extract lines = some t) :
    t.map Prod.fst = seenFold [] ((specEntries lines).map (·.1)) := by
  obtain ⟨ht, -⟩ := extract_some h
  subst ht
  exact Eq.trans
    (keys_foldPush (fun vs? vr => pushVar (vs?.getD []) vr) (specEntries lines) []) rfl

theorem lookupT_extract {lines : List Str} {t : Table} (h : extract lines = some t)
    (g : Str) :
    lookupA t g
      = if specEntriesFor lines g = [] then none else some (varTableFor lines g) := by
  obtain ⟨ht, -⟩ := extract_some h
  subst ht
  refine Eq.trans
    (lookupA_foldPush (fun vs? vr => pushVar (vs?.getD []) vr) (specEntries lines) [] g) ?_
  exact Eq.trans
    (foldl_opt_split (fun vs? vr => pushVar (vs?.getD []) vr) [] (fun vr => rfl) _) rfl

theorem keys_varTableFor (lines : List Str) (g : Str) :
    (varTableFor lines g).map Prod.fst = specVariants lines g :=
  Eq.trans
    (keys_foldPush (fun rs? r => rs?.getD [] ++ [r]) (specEntriesFor lines g) []) rfl

theorem lookupA_varTableFor (lines : List Str) (g v : Str) :
    lookupA (varTableFor lines g) v
      = if specPoints lines g v = [] then none else some (specPoints lines g v) := by
  refine Eq.trans
    (lookupA_foldPush (fun rs? r => rs?.getD [] ++ [r]) (specEntriesFor lines g) [] v) ?_
  refine Eq.trans
    (foldl_opt_split (fun rs? r => rs?.getD [] ++ [r]) [] (fun r => rfl) _) ?_
  show (if specPoints lines g v = [] then none
      else some ((specPoints lines g v).foldl (fun rs r => rs ++ [r]) [])) = _
  rw [foldl_append_one, List.nil_append]

/-! The code-point order used to model `sorted`. -/

theorem strLe_total : ∀ a b : Str, strLe a b = true ∨ strLe b a = true := by
  intro a
  induction a with
  | nil => intro b; exact Or.inl rfl
  | cons c cs ih =>
    intro b
    cases b with
    | nil => exact Or.inr rfl
    | cons d ds =>
      show (if c.toNat < d.toNat then true
          else if d.toNat < c.toNat then false else strLe cs ds) = true ∨
        (if d.toNat < c.toNat then true
          else if c.toNat < d.toNat then false else strLe ds cs) = true
      rcases Nat.lt_trichotomy c.toNat d.toNat with h | h | h
      · left; rw [if_pos h]
      · have h1 : ¬ c.toNat < d.toNat := by omega
        have h2 : ¬ d.toNat < c.toNat := by omega
        rw [if_neg h1, if_neg h2, if_neg h2, if_neg h1]
        exact ih ds
      · right; rw [if_pos h]

theorem strLe_trans :
    ∀ a b c : Str, strLe a b = true → strLe b c = true → strLe a c = true := by
  intro a
  induction a with
  | nil => intro b c _ _; rfl
  | cons x xs ih =>
    intro b c hab hbc
    cases b with
    | nil => exact absurd hab (by simp [strLe])
    | cons y ys =>
      cases c with
      | nil => exact absurd hbc (by simp [strLe])
      | cons z zs =>
        revert hab hbc
        show (if x.toNat < y.toNat then true
            else if y.toNat < x.toNat then false else strLe xs ys) = true →
          (if y.toNat < z.toNat then true
            else if z.toNat < y.toNat then false else strLe ys zs) = true →
          (if x.toNat < z.toNat then true
            else if z.toNat < x.toNat then false else strLe xs zs) = true
        intro hab hbc
        by_cases h1 : x.toNat < y.toNat
        · by_cases h2 : y.toNat < z.toNat
          · rw [if_pos (by omega : x.toNat < z.toNat)]
          · by_cases h3 : z.toNat < y.toNat
            · rw [if_neg h2, if_pos h3] at hbc
              exact absurd hbc (by simp)
            · rw [if_pos (by omega : x.toNat < z.toNat)]
        · by_cases h1' : y.toNat < x.toNat
          · rw [if_neg h1, if_pos h1'] at hab
            exact absurd hab (by simp)
          · rw [if_neg h1, if_neg h1'] at hab
            by_cases h2 : y.toNat < z.toNat
            · rw [if_pos (by omega : x.toNat < z.toNat)]
            · by_cases h3 : z.toNat < y.toNat
              · rw [if_neg h2, if_pos h3] at hbc
                exact absurd hbc (by simp)
              · rw [if_neg h2, if_neg h3] at hbc
                rw [if_neg (by omega : ¬ x.toNat < z.toNat),
                  if_neg (by omega : ¬ z.toNat < x.toNat)]
                exact ih ys zs hab hbc

/-! Membership in the emitted block list. -/

theorem mem_emitBlocks {t : Table} {blk : ChartBlock} (h : blk ∈ emitBlocks t) :
    ∃ g, g ∈ t.map Prod.fst ∧ blk.benchmark = g ∧
      blk.series = ((lookupA t g).getD []).map mkSeries := by
  obtain ⟨g, hg, rfl⟩ := List.mem_map.mp h
  exact ⟨g, (List.perm_insertionSort strLeP (t.map Prod.fst)).subset hg, rfl, rfl⟩

/-! Support lemmas for the claim theorems. -/

theorem mem_of_get? {α : Type} {l : List α} {i : Nat} {a : α}
    (h : l.get? i = some a) : a ∈ l := by
  obtain ⟨hlt, rfl⟩ := List.get?_eq_some.mp h
  exact List.get_mem l i hlt

theorem headI_mem_of_ne_nil {α : Type} [Inhabited α] {l : List α} (h : l ≠ []) :
    l.headI ∈ l := by
  obtain ⟨b, L, rfl⟩ := List.exists_cons_of_ne_nil h
  exact List.mem_cons_self b L

theorem ne_nil_of_length_eq_succ {α : Type} {l : List α} {k : Nat}
    (h : l.length = k + 1) : l ≠ [] := by
  intro hh
  rw [hh] at h
  cases h

/-- On a candidate line the group name inherits the `Benchmark` start of
field 0, because the prefix contains no `/`. -/
theorem benchD_isPre {line : Str} (hc : candidateB line = true) :
    benchTag.isPrefixOf (benchD line) = true := by
  have h2 : benchTag.isPrefixOf (fieldD line 0) = true := by
    simp only [candidateB, Bool.and_eq_true] at hc
    exact hc.2
  exact headI_splitOnChar_isPre '/' benchTag (fieldD line 0) h2 (by decide)

/-- Hence the group name of a candidate line is never `MemoryConsumption`. -/
theorem benchD_ne_memGroup {line : Str} (hc : candidateB line = true) :
    benchD line ≠ memGroup := by
  intro heq
  have h := benchD_isPre hc
  rw [heq] at h
  exact absurd h (by decide)

theorem keysT_nodup {lines : List Str} {t : Table} (h : extract lines = some t) :
    (t.map Prod.fst).Nodup := by
  rw [keysT_extract h]
  exact seenFold_nodup _ [] List.nodup_nil

/-- The `n` of every record of a line is non-negative: its digit string is
a piece of a split on `-`, so it cannot carry a minus sign. -/
theorem extractLine_n_nonneg {line : Str} {rs : List Entry}
    (h : extractLine line = LineRes.records rs) :
    ∀ e ∈ rs, 0 ≤ e.2.2.n := by
  obtain ⟨-, seg, nRaw, n, t_ns, hseg, hnRaw, hn, -, hshape⟩ := extractLine_records h
  have hmem : nRaw ∈ splitOnChar '-' seg := mem_of_get? hnRaw
  have hnd : ('-' : Char) ∉ nRaw := not_sep_of_mem_splitOnChar '-' seg nRaw hmem
  have hpos : 0 ≤ n := pyInt_nonneg hnd hn
  rcases hshape with ⟨-, bytes, -, rfl⟩ | ⟨-, rfl⟩
  · intro e he
    rcases List.mem_cons.mp he with rfl | he2
    · exact hpos
    · rcases List.mem_cons.mp he2 with rfl | he3
      · exact hpos
      · cases he3
  · intro e he
    rcases List.mem_cons.mp he with rfl | he2
    · exact hpos
    · cases he2

/-- Any record of a line that carries the group `MemoryConsumption` is the
derived one: the line's own group name contains the pattern, differs from
`MemoryConsumption`, and the value is the byte count over `1024 * 1024`. -/
theorem memGroup_entry_derived {line : Str} {rs : List Entry} {e : Entry}
    (h : extractLine line = LineRes.records rs) (he : e ∈ rs)
    (hg : e.1 = memGroup) :
    containsSub memPattern (benchD line) = true ∧
    benchD line ≠ memGroup ∧
    ∃ bytes, pyInt (firstTok (fieldD line 3)) = some bytes ∧
      e.2.2.value = (bytes : ℚ) / (1024 * 1024) := by
  obtain ⟨hc, seg, nRaw, n, t_ns, hseg, hnRaw, hn, htns, hshape⟩ := extractLine_records h
  have hneq := benchD_ne_memGroup hc
  rcases hshape with ⟨hpat, bytes, hb, rfl⟩ | ⟨hpat, rfl⟩
  · refine ⟨hpat, hneq, bytes, hb, ?_⟩
    rcases List.mem_cons.mp he with rfl | he2
    · exact absurd hg hneq
    · rcases List.mem_cons.mp he2 with rfl | he3
      · rfl
      · cases he3
  · rcases List.mem_cons.mp he with rfl | he2
    · exact absurd hg hneq
    · cases he2

/-- Every record stored in the table of a successful run came from some
input line that produced it. -/
theorem mem_table_extract {lines : List Str} {t : Table} {g : Str}
    {vs : VarTable} {v : Str} {rsl : PointList} {r : MeasurementRecord}
    (h : extract lines = some t) (hgv : (g, vs) ∈ t) (hvr : (v, rsl) ∈ vs)
    (hr : r ∈ rsl) :
    ∃ line ∈ lines, ∃ rs, extractLine line = LineRes.records rs ∧
      (g, v, r) ∈ rs := by
  have hknd : (t.map Prod.fst).Nodup := keysT_nodup h
  have hlook := lookupA_of_mem_nodup hknd hgv
  rw [lookupT_extract h g] at hlook
  by_cases hne : specEntriesFor lines g = []
  · rw [if_pos hne] at hlook
    cases hlook
  · rw [if_neg hne] at hlook
    obtain rfl : varTableFor lines g = vs := Option.some.inj hlook
    have hvnd : ((varTableFor lines g).map Prod.fst).Nodup := by
      rw [keys_varTableFor]
      exact seenFold_nodup _ [] List.nodup_nil
    have hlv := lookupA_of_mem_nodup hvnd hvr
    rw [lookupA_varTableFor] at hlv
    by_cases hvp : specPoints lines g v = []
    · rw [if_pos hvp] at hlv
      cases hlv
    · rw [if_neg hvp] at hlv
      obtain rfl : specPoints lines g v = rsl := Option.some.inj hlv
      obtain ⟨p, hp, hp2⟩ := List.mem_map.mp hr
      obtain ⟨hpmem, hpv⟩ := List.mem_filter.mp hp
      obtain ⟨e, he, he2⟩ := List.mem_map.mp hpmem
      obtain ⟨hemem, heg⟩ := List.mem_filter.mp he
      obtain ⟨line, hline, hcontrib⟩ := List.mem_flatMap.mp hemem
      obtain ⟨e1, e2, e3⟩ := e
      obtain ⟨p1, p2⟩ := p
      have hg2 : e1 = g := of_decide_eq_true heg
      injection he2 with h1 h2
      have hv2 : p1 = v := of_decide_eq_true hpv
      have hr2 : p2 = r := hp2
      subst hg2; subst hv2; subst hr2; subst h1; subst h2
      cases hres : extractLine line with
      | skipped => simp only [lineContrib, hres] at hcontrib; cases hcontrib
      | failed => simp only [lineContrib, hres] at hcontrib; cases hcontrib
      | records rs =>
        simp only [lineContrib, hres] at hcontrib
        exact ⟨line, hline, rs, hres, hcontrib⟩

/-! Claim theorems. -/

/-- C1, counterexample: `badNLine` splits into exactly 8 tab fields and its
first field starts with `Benchmark`, yet it produces no record — the run
aborts (`LineRes.failed`), refuting "at least one record if and only if the
filter passes". -/
theorem c1_counterexample :
    candidateB badNLine = true ∧ extractLine badNLine = LineRes.failed := by
  constructor
  · decide
  · decide

/-- C1 (amended): a line failing the 8-field/`Benchmark` filter is skipped
silently and contributes zero records; records only ever come from a
filter-passing line, and a successful decode yields at least one record; a
filter-passing line is never skipped (it either decodes or aborts the
run). -/
theorem c1_filter_amended (line : Str) (rs : List Entry) :
    (candidateB line = false → extractLine line = LineRes.skipped) ∧
    (extractLine line = LineRes.records rs → candidateB line = true ∧ rs ≠ []) ∧
    (candidateB line = true → extractLine line ≠ LineRes.skipped) := by
  refine ⟨?_, ?_, ?_⟩
  · intro h
    exact extractLine_skipped_iff.mpr h
  · intro h
    obtain ⟨hc, seg, nRaw, n, t_ns, -, -, -, -, hshape⟩ := extractLine_records h
    refine ⟨hc, ?_⟩
    rcases hshape with ⟨-, bytes, -, rfl⟩ | ⟨-, rfl⟩ <;> simp
  · intro h hskip
    rw [extractLine_skipped_iff] at hskip
    rw [h] at hskip
    exact Bool.noConfusion hskip

/-- Witness for C1: the 7-field line is skipped; the accepted line
`wLineB` passes the filter and produced a non-empty record list. -/
theorem c1_filter_amended_witness :
    extractLine shortLine = LineRes.skipped ∧
    (candidateB wLineB = true ∧ wRsB ≠ []) := by
  constructor
  · exact (c1_filter_amended shortLine []).1 (by decide)
  · exact (c1_filter_amended wLineB wRsB).2.1 (by rfl)

/-- C2: the first record of every successful decode has the group name
before the first `/` of field 0, the variant name before the first `-` of
the second `/`-segment, and `n` the integer parse of the sub-segment after
that `-`. -/
theorem c2_decode (line : Str) (rs : List Entry)
    (h : extractLine line = LineRes.records rs) :
    (rs.headI).1 = (splitOnChar '/' (fieldD line 0)).headI ∧
    (rs.headI).2.1 = (splitOnChar '-' (seg1D line)).headI ∧
    pyInt ((splitOnChar '-' (seg1D line)).getD 1 []) = some ((rs.headI).2.2.n) := by
  obtain ⟨hc, seg, nRaw, n, t_ns, hseg, hnRaw, hn, htns, hshape⟩ := extractLine_records h
  have hseg1 : seg1D line = seg := by
    simp only [seg1D]
    exact getD_of_get? [] hseg
  have hnRaw1 : (splitOnChar '-' (seg1D line)).getD 1 [] = nRaw := by
    rw [hseg1]
    exact getD_of_get? [] hnRaw
  rcases hshape with ⟨-, bytes, -, rfl⟩ | ⟨-, rfl⟩ <;>
    exact ⟨rfl, rfl, by rw [hnRaw1]; exact hn⟩

/-- Witness for C2 at the concrete line `wLineA`. -/
theorem c2_decode_witness :
    (wRsA.headI).1 = (splitOnChar '/' (fieldD wLineA 0)).headI ∧
    (wRsA.headI).2.1 = (splitOnChar '-' (seg1D wLineA)).headI ∧
    pyInt ((splitOnChar '-' (seg1D wLineA)).getD 1 []) = some ((wRsA.headI).2.2.n) :=
  c2_decode wLineA wRsA (by rfl)

/-- C3: the stored time value is the nanosecond token of field 2 divided
by 1,000,000 in exact (non-truncating) arithmetic, and every derived
memory record's value is the byte token of field 3 divided by 1,048,576. -/
theorem c3_values (line : Str) (rs : List Entry)
    (h : extractLine line = LineRes.records rs) :
    (∃ t_ns, pyInt (firstTok (fieldD line 2)) = some t_ns ∧
      (rs.headI).2.2.value = (t_ns : ℚ) / 1000000) ∧
    ∀ e ∈ rs.tail, ∃ bytes, pyInt (firstTok (fieldD line 3)) = some bytes ∧
      e.2.2.value = (bytes : ℚ) / 1048576 := by
  obtain ⟨hc, seg, nRaw, n, t_ns, hseg, hnRaw, hn, htns, hshape⟩ := extractLine_records h
  rcases hshape with ⟨hpat, bytes, hb, rfl⟩ | ⟨hpat, rfl⟩
  · refine ⟨⟨t_ns, htns, ?_⟩, ?_⟩
    · show (t_ns : ℚ) / (1000 * 1000) = (t_ns : ℚ) / 1000000
      norm_num
    · intro e he
      rcases List.mem_cons.mp he with rfl | he2
      · refine ⟨bytes, hb, ?_⟩
        show (bytes : ℚ) / (1024 * 1024) = (bytes : ℚ) / 1048576
        norm_num
      · cases he2
  · refine ⟨⟨t_ns, htns, ?_⟩, ?_⟩
    · show (t_ns : ℚ) / (1000 * 1000) = (t_ns : ℚ) / 1000000
      norm_num
    · intro e he
      cases he

/-- Witness for C3: on `wLineA` the time is `1500000 / 1000000` ms and the
derived memory value is `2097152 / 1048576` MB, both as exact rationals. -/
theorem c3_values_witness :
    (wRsA.headI).2.2.value = ((1500000 : Int) : ℚ) / 1000000 ∧
    (wRsA.tail.headI).2.2.value = ((2097152 : Int) : ℚ) / 1048576 := by
  obtain ⟨⟨t_ns, htns, hval⟩, hmem⟩ := c3_values wLineA wRsA (by rfl)
  have ht : t_ns = (1500000 : Int) := by
    have hx : pyInt (firstTok (fieldD wLineA 2)) = some (1500000 : Int) := by decide
    rw [hx] at htns
    exact (Option.some.inj htns).symm
  have htail : wRsA.tail ≠ [] :=
    ne_nil_of_length_eq_succ (show wRsA.tail.length = 0 + 1 by decide)
  obtain ⟨bytes, hb, hv⟩ := hmem (wRsA.tail.headI) (headI_mem_of_ne_nil htail)
  have hby : bytes = (2097152 : Int) := by
    have hx : pyInt (firstTok (fieldD wLineA 3)) = some (2097152 : Int) := by decide
    rw [hx] at hb
    exact (Option.some.inj hb).symm
  constructor
  · rw [hval, ht]
  · rw [hv, hby]

/-- C4, counterexample: `badByteLine` is an accepted candidate whose group
name contains the recognized pattern, yet it produces zero records (the
byte token is not numeric, so the run aborts), refuting "produces exactly
two records". -/
theorem c4_counterexample :
    candidateB badByteLine = true ∧
    containsSub memPattern (benchD badByteLine) = true ∧
    extractLine badByteLine = LineRes.failed := by
  refine ⟨by decide, by decide, by decide⟩

/-- C4 (amended): every accepted line whose decoding succeeds produces
exactly two records when its group name contains the pattern — its own
record plus a `MemoryConsumption` record with the same variant, `n` and
label and value `bytes / (1024 * 1024)` — and exactly one record
otherwise. -/
theorem c4_derived_amended (line : Str) (rs : List Entry)
    (h : extractLine line = LineRes.records rs) :
    (containsSub memPattern (benchD line) = true →
      ∃ v r bytes, pyInt (firstTok (fieldD line 3)) = some bytes ∧
        rs = [(benchD line, v, r),
          (memGroup, v, ⟨r.n, (bytes : ℚ) / (1024 * 1024), r.load⟩)]) ∧
    (containsSub memPattern (benchD line) = false →
      ∃ v r, rs = [(benchD line, v, r)]) := by
  obtain ⟨hc, seg, nRaw, n, t_ns, hseg, hnRaw, hn, htns, hshape⟩ := extractLine_records h
  rcases hshape with ⟨hpat, bytes, hb, rfl⟩ | ⟨hpat, rfl⟩
  · constructor
    · intro _
      exact ⟨mapD line, ⟨n, (t_ns : ℚ) / (1000 * 1000), loadD line⟩, bytes, hb, rfl⟩
    · intro hfalse
      rw [hpat] at hfalse
      exact Bool.noConfusion hfalse
  · constructor
    · intro htrue
      rw [hpat] at htrue
      exact Bool.noConfusion htrue
    · intro _
      exact ⟨mapD line, ⟨n, (t_ns : ℚ) / (1000 * 1000), loadD line⟩, rfl⟩

/-- Witness for C4: the pattern line `wLineA` produced two records with the
second one under `MemoryConsumption`; the plain line `wLineB` produced one. -/
theorem c4_derived_amended_witness :
    (wRsA.length = 2 ∧ (wRsA.getD 1 default).1 = memGroup) ∧ wRsB.length = 1 := by
  constructor
  · obtain ⟨v, r, bytes, hb, hshape⟩ :=
      (c4_derived_amended wLineA wRsA (by rfl)).1 (by decide)
    constructor
    · rw [hshape]
      rfl
    · rw [hshape]
      rfl
  · obtain ⟨v, r, hshape⟩ := (c4_derived_amended wLineB wRsB (by rfl)).2 (by decide)
    rw [hshape]
    rfl

/-- Mapping a block list back to its group names is the identity on the
sorted key list. -/
theorem map_benchmark_mk (f : Str → Str) (gser : Str → List SeriesDef)
    (l : List Str) :
    (l.map (fun g => ({ benchmark := g, yNaming := f g, series := gser g } :
        ChartBlock))).map ChartBlock.benchmark = l := by
  induction l with
  | nil => rfl
  | cons a as ih =>
    simp only [List.map_cons]
    rw [ih]

/-- C5: the emitted document has exactly one chart block per distinct
group of the table (the block names are a permutation of the table's
keys, without duplicates), and the blocks appear in ascending
lexicographic order of the group name. -/
theorem c5_blocks_sorted (lines : List Str) (t : Table)
    (h : extract lines = some t) :
    ((emitBlocks t).map ChartBlock.benchmark).Perm (t.map Prod.fst) ∧
    ((emitBlocks t).map ChartBlock.benchmark).Nodup ∧
    List.Pairwise strLeP ((emitBlocks t).map ChartBlock.benchmark) := by
  have hkeys : (emitBlocks t).map ChartBlock.benchmark
      = List.insertionSort strLeP (t.map Prod.fst) := by
    simp only [emitBlocks]
    exact map_benchmark_mk _ _ _
  have hperm := List.perm_insertionSort strLeP (t.map Prod.fst)
  have hnd := keysT_nodup h
  refine ⟨?_, ?_, ?_⟩
  · rw [hkeys]
    exact hperm
  · rw [hkeys]
    exact hperm.symm.nodup hnd
  · rw [hkeys]
    exact @List.sorted_insertionSort Str strLeP _ ⟨strLe_total⟩
      ⟨fun a b c => strLe_trans a b c⟩ (t.map Prod.fst)

/-- Witness for C5 on the two-line input with three groups. -/
theorem c5_blocks_sorted_witness :
    ((emitBlocks wTable).map ChartBlock.benchmark).Perm (wTable.map Prod.fst) ∧
    ((emitBlocks wTable).map ChartBlock.benchmark).Nodup ∧
    List.Pairwise strLeP ((emitBlocks wTable).map ChartBlock.benchmark) :=
  c5_blocks_sorted wLines wTable (by rfl)

/-- C6: inside each block the series carry the variants in first-seen
input order (`specVariants`), and each series' x, y and text lists are the
parallel projections of that variant's records in input-line order, with
equal lengths and the line-plus-marker mode. -/
theorem c6_series_order (lines : List Str) (t : Table)
    (h : extract lines = some t) :
    ∀ blk ∈ emitBlocks t,
      blk.series.map SeriesDef.name = specVariants lines blk.benchmark ∧
      ∀ s ∈ blk.series,
        s.x = (specPoints lines blk.benchmark s.name).map MeasurementRecord.n ∧
        s.y = (specPoints lines blk.benchmark s.name).map MeasurementRecord.value ∧
        s.text = (specPoints lines blk.benchmark s.name).map MeasurementRecord.load ∧
        s.x.length = (specPoints lines blk.benchmark s.name).length ∧
        s.y.length = s.x.length ∧ s.text.length = s.x.length ∧
        s.mode = ("lines+markers").toList := by
  intro blk hblk
  obtain ⟨g, hg, hbench, hser⟩ := mem_emitBlocks hblk
  rw [hbench]
  by_cases hne : specEntriesFor lines g = []
  · exfalso
    have hsome : (lookupA t g).isSome = true := (lookupA_isSome_iff t g).mpr hg
    rw [lookupT_extract h g, if_pos hne] at hsome
    exact Bool.noConfusion hsome
  · have hlook : lookupA t g = some (varTableFor lines g) := by
      rw [lookupT_extract h g, if_neg hne]
    rw [hlook] at hser
    rw [Option.getD_some] at hser
    constructor
    · rw [hser, List.map_map]
      have hid : (varTableFor lines g).map (SeriesDef.name ∘ mkSeries)
          = (varTableFor lines g).map Prod.fst := rfl
      rw [hid, keys_varTableFor]
    · intro s hs
      rw [hser] at hs
      obtain ⟨p, hp, rfl⟩ := List.mem_map.mp hs
      obtain ⟨v, rsl⟩ := p
      have hvnd : ((varTableFor lines g).map Prod.fst).Nodup := by
        rw [keys_varTableFor]
        exact seenFold_nodup _ [] List.nodup_nil
      have hlv := lookupA_of_mem_nodup hvnd hp
      rw [lookupA_varTableFor] at hlv
      by_cases hvp : specPoints lines g v = []
      · rw [if_pos hvp] at hlv
        cases hlv
      · rw [if_neg hvp] at hlv
        obtain rfl : specPoints lines g v = rsl := Option.some.inj hlv
        refine ⟨rfl, rfl, rfl, ?_, ?_, ?_, rfl⟩
        · exact List.length_map _ _
        · exact (List.length_map _ _).trans (List.length_map _ _).symm
        · exact (List.length_map _ _).trans (List.length_map _ _).symm

/-- Witness for C6: the first emitted block of the two-line input lists its
variants in first-seen input order. -/
theorem c6_series_order_witness :
    ((emitBlocks wTable).headI).series.map SeriesDef.name
      = specVariants wLines ((emitBlocks wTable).headI).benchmark := by
  have hne : emitBlocks wTable ≠ [] :=
    ne_nil_of_length_eq_succ (show (emitBlocks wTable).length = 2 + 1 by decide)
  exact ((c6_series_order wLines wTable (by rfl)) _ (headI_mem_of_ne_nil hne)).1

/-- C7: every record stored by a successful run has a non-negative `n`. -/
theorem c7_n_nonneg (lines : List Str) (t : Table) (h : extract lines = some t) :
    ∀ gv ∈ t, ∀ vr ∈ gv.2, ∀ r ∈ vr.2, 0 ≤ r.n := by
  intro gv hgv vr hvr r hr
  obtain ⟨g, vs⟩ := gv
  obtain ⟨v, rsl⟩ := vr
  obtain ⟨line, hline, rs, hrs, hmem⟩ := mem_table_extract h hgv hvr hr
  exact extractLine_n_nonneg hrs _ hmem

/-- Witness for C7 at the first stored record of the two-line input. -/
theorem c7_n_nonneg_witness : 0 ≤ (((wTable.headI).2.headI).2.headI).n := by
  have hgv : wTable.headI ∈ wTable :=
    headI_mem_of_ne_nil
      (ne_nil_of_length_eq_succ (show wTable.length = 2 + 1 by decide))
  have hvr : (wTable.headI).2.headI ∈ (wTable.headI).2 :=
    headI_mem_of_ne_nil
      (ne_nil_of_length_eq_succ (show (wTable.headI).2.length = 0 + 1 by decide))
  have hrec : ((wTable.headI).2.headI).2.headI ∈ ((wTable.headI).2.headI).2 :=
    headI_mem_of_ne_nil
      (ne_nil_of_length_eq_succ
        (show ((wTable.headI).2.headI).2.length = 0 + 1 by decide))
  exact c7_n_nonneg wLines wTable (by rfl) wTable.headI hgv
    ((wTable.headI).2.headI) hvr (((wTable.headI).2.headI).2.headI) hrec

/-- C8: an accepted candidate line with a non-numeric `n` segment,
nanosecond token, or (under the derived rule) byte token makes that line
fail, aborts the whole extraction, and produces no part of the output
document. -/
theorem c8_fatal (lines : List Str) (line : Str) (hmem : line ∈ lines)
    (hc : candidateB line = true)
    (hbad : pyInt (nRawD line) = none ∨
      pyInt (firstTok (fieldD line 2)) = none ∨
      (containsSub memPattern (benchD line) = true ∧
        pyInt (firstTok (fieldD line 3)) = none)) :
    extractLine line = LineRes.failed ∧ extract lines = none ∧
      runPipeline lines = none := by
  have hfail : extractLine line = LineRes.failed := by
    cases hres : extractLine line with
    | skipped =>
      rw [extractLine_skipped_iff] at hres
      rw [hc] at hres
      exact Bool.noConfusion hres
    | failed => rfl
    | records rs =>
      exfalso
      obtain ⟨-, seg, nRaw, n, t_ns, hseg, hnRaw, hn, htns, hshape⟩ :=
        extractLine_records hres
      have hnRawD : nRawD line = nRaw := by
        have hseg1 : seg1D line = seg := by
          simp only [seg1D]
          exact getD_of_get? [] hseg
        simp only [nRawD, hseg1]
        exact getD_of_get? [] hnRaw
      rcases hbad with hb | hb | ⟨hp, hb⟩
      · rw [hnRawD, hn] at hb
        exact Option.noConfusion hb
      · rw [htns] at hb
        exact Option.noConfusion hb
      · rcases hshape with ⟨-, bytes, hbytes, -⟩ | ⟨hpat, -⟩
        · rw [hbytes] at hb
          exact Option.noConfusion hb
        · rw [hpat] at hp
          exact Bool.noConfusion hp
  have hnone : extract lines = none := extractFrom_none hmem hfail []
  refine ⟨hfail, hnone, ?_⟩
  simp only [runPipeline, hnone]
  rfl

/-- Witness for C8: the shaped line with non-numeric `n` aborts a one-line
run with no document. -/
theorem c8_fatal_witness :
    extractLine badNLine = LineRes.failed ∧ extract [badNLine] = none ∧
      runPipeline [badNLine] = none :=
  c8_fatal [badNLine] badNLine (List.mem_cons_self badNLine [])
    (by decide) (Or.inl (by decide))

/-- C9: every record stored under `MemoryConsumption` was synthesized from
an accepted line whose own group name contains the recognized pattern and
is not `MemoryConsumption`, with value the line's byte count over
`1024 * 1024`. -/
theorem c9_memgroup_derived (lines : List Str) (t : Table)
    (h : extract lines = some t) (vs : VarTable) (hgv : (memGroup, vs) ∈ t)
    (vr : Str × PointList) (hvr : vr ∈ vs) (r : MeasurementRecord)
    (hr : r ∈ vr.2) :
    ∃ line ∈ lines, ∃ rs, extractLine line = LineRes.records rs ∧
      containsSub memPattern (benchD line) = true ∧
      benchD line ≠ memGroup ∧
      ∃ bytes, pyInt (firstTok (fieldD line 3)) = some bytes ∧
        r.value = (bytes : ℚ) / (1024 * 1024) := by
  obtain ⟨v, rsl⟩ := vr
  obtain ⟨line, hline, rs, hrs, hmem⟩ := mem_table_extract h hgv hvr hr
  obtain ⟨hpat, hneq, bytes, hb, hval⟩ := memGroup_entry_derived hrs hmem rfl
  exact ⟨line, hline, rs, hrs, hpat, hneq, bytes, hb, hval⟩

/-- Witness for C9 at the stored `MemoryConsumption` record of the
two-line input. -/
theorem c9_memgroup_derived_witness :
    ∃ line ∈ wLines, ∃ rs, extractLine line = LineRes.records rs ∧
      containsSub memPattern (benchD line) = true ∧
      benchD line ≠ memGroup ∧
      ∃ bytes, pyInt (firstTok (fieldD line 3)) = some bytes ∧
        ((wMCvs.headI).2.headI).value = (bytes : ℚ) / (1024 * 1024) := by
  have h1 : wTable.get? 1 = some (memGroup, wMCvs) := by rfl
  have hgv : (memGroup, wMCvs) ∈ wTable := mem_of_get? h1
  have hvs : wMCvs.headI ∈ wMCvs :=
    headI_mem_of_ne_nil
      (ne_nil_of_length_eq_succ (show wMCvs.length = 0 + 1 by decide))
  have hrec : (wMCvs.headI).2.headI ∈ (wMCvs.headI).2 :=
    headI_mem_of_ne_nil
      (ne_nil_of_length_eq_succ (show (wMCvs.headI).2.length = 0 + 1 by decide))
  exact c9_memgroup_derived wLines wTable (by rfl) wMCvs hgv (wMCvs.headI) hvs
    ((wMCvs.headI).2.headI) hrec

/-- C10: an accepted candidate whose field 0 has no `/`, or whose second
`/`-segment has no `-`, aborts the run (and the whole extraction when the
line is part of the input) instead of being skipped. -/
theorem c10_structure_fatal (lines : List Str) (line : Str)
    (hc : candidateB line = true)
    (hbad : ('/' : Char) ∉ fieldD line 0 ∨ ('-' : Char) ∉ seg1D line) :
    extractLine line = LineRes.failed ∧
      (line ∈ lines → extract lines = none) := by
  have hfail : extractLine line = LineRes.failed := by
    cases hres : extractLine line with
    | skipped =>
      rw [extractLine_skipped_iff] at hres
      rw [hc] at hres
      exact Bool.noConfusion hres
    | failed => rfl
    | records rs =>
      exfalso
      obtain ⟨-, seg, nRaw, n, t_ns, hseg, hnRaw, -, -, -⟩ :=
        extractLine_records hres
      rcases hbad with hb | hb
      · rw [splitOnChar_of_not_mem hb] at hseg
        simp [List.get?] at hseg
      · have hseg1 : seg1D line = seg := by
          simp only [seg1D]
          exact getD_of_get? [] hseg
        rw [hseg1] at hb
        rw [splitOnChar_of_not_mem hb] at hnRaw
        simp [List.get?] at hnRaw
  exact ⟨hfail, fun hmem => extractFrom_none hmem hfail []⟩

/-- Witness for C10: a candidate with no `/` and a candidate with no `-`
each abort their one-line run. -/
theorem c10_structure_fatal_witness :
    (extractLine noSlashLine = LineRes.failed ∧ extract [noSlashLine] = none) ∧
    (extractLine noDashLine = LineRes.failed ∧ extract [noDashLine] = none) := by
  constructor
  · obtain ⟨h1, h2⟩ := c10_structure_fatal [noSlashLine] noSlashLine
      (by decide) (Or.inl (by decide))
    exact ⟨h1, h2 (List.mem_cons_self noSlashLine [])⟩
  · obtain ⟨h1, h2⟩ := c10_structure_fatal [noDashLine] noDashLine
      (by decide) (Or.inr (by decide))
    exact ⟨h1, h2 (List.mem_cons_self noDashLine [])⟩
